import Mathlib

/-!
Verification of the xi-editor edit engine (rust/rope/src/engine.rs).

The engine source is translated definition by definition.  The collaborating
data types (Rope, Subset, Delta) are external to the engine module and are not
part of the provided source; they are modelled from the specification's
documented contracts (spec sections 3 and 6), using the deletion-marking
representation the engine's call sites require: a Subset over a coordinate
space is a list of booleans where true marks a position that is absent
(deleted or suppressed) and false marks a position that is present; positions
beyond the end of the list count as unmarked (false).
-/

set_option maxRecDepth 10000

namespace XiEngine

/-- Modelled from the spec: the position-subset collaborator (§6).  A marking
over a coordinate space; true marks a position excluded from the selection,
false (or beyond the list) marks a position that is kept. -/
abbrev Subset : Type := List Bool

/-- Modelled from the spec: is_trivial is the empty check — no position marked. -/
def Subset.is_trivial (s : Subset) : Bool := s.all (fun b => !b)

/-- Modelled from the spec: applying a subset to a text keeps exactly the
unmarked positions. -/
def Subset.apply : Subset → List Char → List Char
  | _, [] => []
  | s, c :: t => (if s.headD false then [] else [c]) ++ Subset.apply s.tail t

/-- Modelled from the spec: intersect keeps the positions present in both
subsets, i.e. marks a position excluded when either side marks it. -/
def Subset.intersect : Subset → Subset → Subset
  | s, [] => s
  | s, b :: t => (s.headD false || b) :: Subset.intersect s.tail t

/-- Modelled from the spec: transform_expand reinterprets the subset in the
larger coordinate space in which the positions marked in the other subset have
been notionally inserted; the newly inserted positions are admitted
(unmarked), the remaining coordinates take the original entries in order. -/
def Subset.transform_expand : Subset → Subset → Subset
  | s, [] => s
  | s, true :: o => false :: Subset.transform_expand s o
  | s, false :: o => s.headD false :: Subset.transform_expand s.tail o

/-- Modelled from the spec: transform_intersect reinterprets the subset in the
larger coordinate space of the other subset while dropping the positions the
other subset marks as inserted: those coincident positions become excluded. -/
def Subset.transform_intersect : Subset → Subset → Subset
  | s, [] => s
  | s, true :: o => true :: Subset.transform_intersect s o
  | s, false :: o => s.headD false :: Subset.transform_intersect s.tail o

/-- Modelled from the spec: an insertion-only delta, the first component of a
factored edit-delta.  Each entry inserts the given characters at a gap of the
old coordinate space; entries are listed in order of non-decreasing gap. -/
abbrev InsDelta : Type := List (Nat × List Char)

/-- The smallest coordinate of the larger space at which an insertion gap of
the smaller space lands when the other subset's marked positions are
notionally inserted: the least j whose count of unmarked positions below it
equals the gap. -/
def gapBefore : List Bool → Nat → Nat
  | _, 0 => 0
  | [], p + 1 => p + 1
  | true :: o, p + 1 => gapBefore o (p + 1) + 1
  | false :: o, p + 1 => gapBefore o p + 1

/-- The largest coordinate of the larger space at which an insertion gap of
the smaller space lands: the greatest j whose count of unmarked positions
below it equals the gap, so the insertion is placed after any coincident
inserted block. -/
def gapAfter : List Bool → Nat → Nat
  | [], p => p
  | true :: o, p => gapAfter o p + 1
  | false :: _, 0 => 0
  | false :: o, p + 1 => gapAfter o p + 1

/-- Modelled from the spec: transform_expand on an insertion delta
reinterprets each insertion gap in the coordinate space in which the other
subset's marked positions have been inserted, placing coincident ties before
or after that marked block according to the place_after flag.  The new_len
argument (the length of the larger space, carried by the source signature) is
redundant in this representation because the boolean list itself bounds the
marked positions. -/
def InsDelta.transform_expand (d : InsDelta) (other : Subset) (_newLen : Nat) (after : Bool) : InsDelta :=
  d.map (fun pc => ((if after then gapAfter other pc.1 else gapBefore other pc.1), pc.2))

/-- Auxiliary walk for applying an insertion delta: pos is the old-space
coordinate already consumed. -/
def insApplyAux : List (Nat × List Char) → List Char → Nat → List Char
  | [], s, _ => s
  | (q, cs) :: ins, s, pos =>
      s.take (q - pos) ++ cs ++ insApplyAux ins (s.drop (q - pos)) (max q pos)

/-- Modelled from the spec: applying an insertion-only delta inserts each
entry's characters at its gap of the old text. -/
def InsDelta.apply (d : InsDelta) (s : List Char) : List Char := insApplyAux d s 0

/-- Auxiliary walk for invert_insert: pos is the old-space coordinate already
consumed; old characters contribute unmarked positions, inserted blocks
contribute marked positions. -/
def invertInsertAux : List (Nat × List Char) → Nat → List Bool
  | [], _ => []
  | (q, cs) :: ins, pos =>
      List.replicate (q - pos) false ++ List.replicate cs.length true ++ invertInsertAux ins (max q pos)

/-- Modelled from the spec: invert_insert returns the subset of the new
coordinate space marking exactly the positions the insertion delta
introduced. -/
def InsDelta.invert_insert (d : InsDelta) : Subset := (invertInsertAux d 0 : List Bool)

/-- Modelled from the spec: an edit-delta over a text, kept in factored form —
an insertion-only delta and a deletion subset, both in old-text
coordinates. -/
structure Delta where
  ins : InsDelta
  dels : Subset
deriving DecidableEq

/-- Modelled from the spec: factor splits an edit-delta into its insertion
delta and deletion subset. -/
def Delta.factor (d : Delta) : InsDelta × Subset := (d.ins, d.dels)

/-- Auxiliary walk for applying a full delta: insert pending blocks at their
gaps, keep or drop old characters according to the deletion subset. -/
def delApplyAux : List (Nat × List Char) → Subset → List Char → Nat → List Char
  | [], dels, s, _ => Subset.apply dels s
  | (q, cs) :: ins, dels, s, pos =>
      Subset.apply ((dels : List Bool).take (q - pos) : List Bool) (s.take (q - pos)) ++ cs ++
        delApplyAux ins ((dels : List Bool).drop (q - pos) : List Bool) (s.drop (q - pos)) (max q pos)

/-- Modelled from the spec: applying an edit-delta performs its insertions and
deletions on the old text in one pass. -/
def Delta.apply (d : Delta) (s : List Char) : List Char := delApplyAux d.ins d.dels s 0

/-- Auxiliary walk for synthesize over the union text: pos is the coordinate
of the from-side text reached so far; characters absent in the from side but
present in the to side become insertions, characters present in the from side
but absent in the to side become deletions. -/
def synthAux : List Char → List Bool → List Bool → Nat → List (Nat × List Char) × List Bool
  | [], _, _, _ => ([], [])
  | c :: u, A, B, pos =>
      if A.headD false then
        if B.headD false then synthAux u A.tail B.tail pos
        else ((pos, [c]) :: (synthAux u A.tail B.tail pos).1, (synthAux u A.tail B.tail pos).2)
      else
        ((synthAux u A.tail B.tail (pos + 1)).1,
         B.headD false :: (synthAux u A.tail B.tail (pos + 1)).2)

/-- Modelled from the spec: synthesize builds the minimal edit-delta carrying
the text selected by the from subset to the text selected by the to subset,
both subsets of the same union text. -/
def Delta.synthesize (unionStr : List Char) (fromSub toSub : Subset) : Delta :=
  ⟨((synthAux unionStr fromSub toSub 0).1 : InsDelta), ((synthAux unionStr fromSub toSub 0).2 : Subset)⟩

/-- engine.rs lines 42-52: the contents of a revision, either an edit or an
undo toggle. -/
inductive Contents where
  | Edit (priority : Nat) (undo_group : Nat) (inserts : Subset) (deletes : Subset)
  | Undo (groups : Finset Nat)
deriving DecidableEq

/-- Discriminator for the Undo variant of Contents. -/
def Contents.isUndo : Contents → Bool
  | Contents.Undo _ => true
  | _ => false

/-- engine.rs lines 33-38: one immutable history record. -/
structure Revision where
  rev_id : Nat
  from_union : Subset
  union_str_len : Nat
  edit : Contents
deriving DecidableEq

instance : Inhabited Revision :=
  ⟨{ rev_id := 0, from_union := ([] : List Bool), union_str_len := 0, edit := Contents.Undo ∅ }⟩

/-- engine.rs lines 27-31: the engine owns the id counter, the union text and
the revision log. -/
structure Engine where
  rev_id_counter : Nat
  union_str : List Char
  revs : List Revision
deriving DecidableEq

/-- Search helper for get_current_undo: first Undo contents in the given
(already reversed) revision list. -/
def findUndoGroups : List Revision → Option (Finset Nat)
  | [] => none
  | r :: rest =>
      match r.edit with
      | Contents.Undo groups => some groups
      | _ => findUndoGroups rest

/-- engine.rs lines 55-62: scan newest to oldest for the most recent Undo
revision and return its group set. -/
def Engine.get_current_undo (e : Engine) : Option (Finset Nat) :=
  findUndoGroups e.revs.reverse

/-- Search helper for find_rev: index of the newest revision carrying the
given id (the scan in the source runs over reversed enumerated entries, so a
match in the tail of the list wins). -/
def findRevAux : List Revision → Nat → Option Nat
  | [], _ => none
  | r :: rest, rid =>
      match findRevAux rest rid with
      | some i => some (i + 1)
      | none => if r.rev_id = rid then some 0 else none

/-- engine.rs lines 64-71: scan newest to oldest for a revision with the given
id, returning its index in the log. -/
def Engine.find_rev (e : Engine) (rev_id : Nat) : Option Nat :=
  findRevAux e.revs rev_id

/-- engine.rs lines 76-79: one step of the reconstruction fold — project the
running subset through a later revision's edit when its inserts are
non-trivial. -/
def revStep (fu : Subset) (r : Revision) : Subset :=
  match r.edit with
  | Contents.Edit _ _ inserts _ =>
      if !(Subset.is_trivial inserts) then Subset.transform_intersect fu inserts else fu
  | _ => fu

/-- engine.rs lines 73-83: reconstruct the visible text of the revision at the
given log index by projecting its from_union forward through every later
revision's non-trivial inserts and applying the result to the union text. -/
def Engine.get_rev (e : Engine) (rev_index : Nat) : List Char :=
  Subset.apply ((e.revs.drop (rev_index + 1)).foldl revStep (e.revs.getD rev_index default).from_union)
    e.union_str

/-- engine.rs lines 85-87: the text of the most recent revision. -/
def Engine.get_head (e : Engine) : List Char :=
  e.get_rev (e.revs.length - 1)

/-- engine.rs lines 91-100: the delta carrying the previous head to the
current head; the source indexes revs[len-2] and therefore aborts on a log
with fewer than two revisions, modelled as none. -/
def Engine.delta_head (e : Engine) : Option Delta :=
  if 2 ≤ e.revs.length then
    let rev := e.revs.getD (e.revs.length - 1) default
    let prev_from_union := revStep (e.revs.getD (e.revs.length - 2) default).from_union rev
    some (Delta.synthesize e.union_str prev_from_union rev.from_union)
  else none

/-- engine.rs lines 109-117: one step of the rebase loop.  Faithful to the
source, which matches on rev.edit — the base revision bound at line 105 —
rather than on the loop variable r, whose only use is r.union_str_len; the
base revision's edit is therefore passed in once as baseEdit. -/
def rebaseStep (baseEdit : Contents) (new_priority : Nat) (acc : InsDelta × Subset) (r : Revision) :
    InsDelta × Subset :=
  match baseEdit with
  | Contents.Edit priority _ inserts _ =>
      if !(Subset.is_trivial inserts) then
        (InsDelta.transform_expand acc.1 inserts r.union_str_len (decide (priority ≤ new_priority)),
         Subset.transform_expand acc.2 inserts)
      else acc
  | _ => acc

/-- engine.rs lines 105-138: the body of mk_new_rev once the base revision
index has been resolved — rebase the incoming delta into union coordinates
and build the new revision together with the new union text. -/
def Engine.mk_new_rev_at (e : Engine) (new_priority undo_group : Nat) (delta : Delta) (ix : Nat) :
    Revision × List Char :=
  let rev := e.revs.getD ix default
  let factored := Delta.factor delta
  let uid0 := InsDelta.transform_expand factored.1 rev.from_union rev.union_str_len true
  let nd0 := Subset.transform_expand factored.2 rev.from_union
  let expanded := (e.revs.drop (ix + 1)).foldl (rebaseStep rev.edit new_priority) (uid0, nd0)
  let new_inserts := InsDelta.invert_insert expanded.1
  let new_union_str := InsDelta.apply expanded.1 e.union_str
  let undone : Bool :=
    match e.get_current_undo with
    | some undos => decide (undo_group ∈ undos)
    | none => false
  let edit := if undone then new_inserts else expanded.2
  let new_from_union :=
    if !(Subset.is_trivial edit) then Subset.intersect rev.from_union edit else rev.from_union
  ({ rev_id := e.rev_id_counter,
     from_union := new_from_union,
     union_str_len := new_union_str.length,
     edit := Contents.Edit new_priority undo_group new_inserts expanded.2 },
   new_union_str)

/-- engine.rs lines 102-139: resolve the base revision by id and rebase; an
unknown base revision id aborts, modelled as none. -/
def Engine.mk_new_rev (e : Engine) (new_priority undo_group base_rev : Nat) (delta : Delta) :
    Option (Revision × List Char) :=
  (e.find_rev base_rev).map (e.mk_new_rev_at new_priority undo_group delta)

/-- engine.rs lines 141-147: append the rebased revision, bump the id counter
and replace the union text; the abort of mk_new_rev propagates as none. -/
def Engine.edit_rev (e : Engine) (priority undo_group base_rev : Nat) (delta : Delta) :
    Option Engine :=
  match e.mk_new_rev priority undo_group base_rev delta with
  | none => none
  | some ru =>
      some { rev_id_counter := e.rev_id_counter + 1,
             union_str := ru.2,
             revs := e.revs ++ [ru.1] }

/-- engine.rs lines 155-168: one step of the undo replay — an Edit revision in
an undone group has its inserts projected out, any other Edit revision has its
inserts admitted and its deletes excluded; Undo revisions are skipped. -/
def undoStep (groups : Finset Nat) (fu : Subset) (r : Revision) : Subset :=
  match r.edit with
  | Contents.Edit _ ug inserts deletes =>
      if ug ∈ groups then
        if !(Subset.is_trivial inserts) then Subset.transform_intersect fu inserts else fu
      else
        let fu2 := if !(Subset.is_trivial inserts) then Subset.transform_expand fu inserts else fu
        if !(Subset.is_trivial deletes) then Subset.intersect fu2 deletes else fu2
  | _ => fu

/-- engine.rs lines 152-178: replay the whole history from the first
revision's from_union and wrap the resulting visibility in a new Undo
revision carrying the target group set. -/
def Engine.compute_undo (e : Engine) (groups : Finset Nat) : Revision :=
  { rev_id := e.rev_id_counter,
    from_union := (e.revs.drop 1).foldl (undoStep groups) (e.revs.getD 0 default).from_union,
    union_str_len := e.union_str.length,
    edit := Contents.Undo groups }

/-- engine.rs lines 180-184: append the recomputed Undo revision and bump the
id counter; the union text is untouched. -/
def Engine.undo (e : Engine) (groups : Finset Nat) : Engine :=
  { e with revs := e.revs ++ [e.compute_undo groups],
           rev_id_counter := e.rev_id_counter + 1 }

/-- Modelled from the spec: the constructor is absent from the provided
source; §6 gives new(initial_text) → Engine with one seed revision
representing the initial text with no edit content, and §4.1 requires
get_current_undo to answer none until undo has been invoked, so the seed is
an Edit with trivial inserts and deletes and a from_union selecting the whole
initial text. -/
def Engine.new (initial : List Char) : Engine :=
  { rev_id_counter := 1,
    union_str := initial,
    revs := [{ rev_id := 0,
               from_union := ([] : List Bool),
               union_str_len := initial.length,
               edit := Contents.Edit 0 0 ([] : List Bool) ([] : List Bool) }] }

/-- One mutating engine operation: a successful edit_rev or an undo. -/
inductive Step : Engine → Engine → Prop
  | edit {e e' : Engine} (p g b : Nat) (d : Delta) :
      e.edit_rev p g b d = some e' → Step e e'
  | undo {e : Engine} (G : Finset Nat) : Step e (e.undo G)

/-- The id bookkeeping invariant: ids strictly increase along the log and stay
below the counter. -/
def IdsOk (e : Engine) : Prop :=
  (e.revs.map Revision.rev_id).Pairwise (· < ·) ∧ ∀ r ∈ e.revs, r.rev_id < e.rev_id_counter

/-- Applying the empty subset keeps the whole text. -/
theorem Subset.apply_nil : ∀ t : List Char, Subset.apply ([] : Subset) t = t
  | [] => rfl
  | c :: t => by simp [Subset.apply, Subset.apply_nil t]

/-- Reading the position right past a list in its extension by one element. -/
theorem getD_concat {α : Type} (d x : α) : ∀ l : List α, (l ++ [x]).getD l.length d = x
  | [] => rfl
  | a :: l => by simp [getD_concat d x l]

/-- The head text of an engine after undo is the recomputed visibility applied
to the unchanged union text. -/
theorem get_head_undo (e : Engine) (G : Finset Nat) :
    (e.undo G).get_head = Subset.apply (e.compute_undo G).from_union e.union_str := by
  have h1 : (e.undo G).revs = e.revs ++ [e.compute_undo G] := rfl
  have h2 : (e.undo G).union_str = e.union_str := rfl
  unfold Engine.get_head Engine.get_rev
  rw [h1, h2]
  have hlen : (e.revs ++ [e.compute_undo G]).length = e.revs.length + 1 := by simp
  rw [hlen]
  have hidx : e.revs.length + 1 - 1 = e.revs.length := by omega
  rw [hidx]
  have hdrop : (e.revs ++ [e.compute_undo G]).drop (e.revs.length + 1) = [] := by
    apply List.drop_eq_nil_of_le; simp
  rw [hdrop, getD_concat]
  rfl

/-- An appended Undo revision is transparent to the undo replay, so
recomputing an undo after an undo reproduces the same visibility subset. -/
theorem compute_undo_after_undo (e : Engine) (G H : Finset Nat) :
    ((e.undo H).compute_undo G).from_union = (e.compute_undo G).from_union := by
  cases hrevs : e.revs with
  | nil =>
      simp only [Engine.compute_undo, Engine.undo, hrevs]
      rfl
  | cons r rest =>
      simp only [Engine.compute_undo, Engine.undo, hrevs]
      simp only [List.cons_append, List.getD_cons_zero, List.drop_succ_cons, List.drop_zero,
        List.foldl_append, List.foldl_cons, List.foldl_nil]
      rfl

/-- C1: the rebase loop of mk_new_rev is required to expand the incoming
insertion delta and deletion subset through each strictly later revision's
non-trivial inserts, tie-breaking on that later revision's priority.  The
source instead matches on the base revision's edit (engine.rs line 110 binds
rev, not the loop variable r), so with a base whose inserts are trivial no
expansion happens at all: after inserting abc from the seed, an insert of d at
position 0 rebased against the seed lands at union position 0 and the head
becomes dabc, while the claimed expansion through the later revision's inserts
(priority 1 against 0, placed after) would give abcd. -/
theorem claim_C1_rebase_reads_base_edit :
    ((((Engine.new []).edit_rev 0 0 0 ⟨[(0, ['a','b','c'])], []⟩).bind
        (fun e => e.edit_rev 1 1 0 ⟨[(0, ['d'])], []⟩)).map Engine.get_head
      = some ['d','a','b','c'])
    ∧ ((((Engine.new []).edit_rev 0 0 0 ⟨[(0, ['a','b','c'])], []⟩).bind
        (fun e => e.edit_rev 1 1 0 ⟨[(0, ['d'])], []⟩)).map Engine.get_head
      ≠ some ['a','b','c','d']) := by
  constructor
  · decide
  · decide

/-- C2: from the empty seed, edit_rev with priority 0, group 0, base the seed
id and a delta inserting abc at 0, then edit_rev with priority 1, group 1,
base the seed id and a delta inserting XY at 1 — rebased against the seed,
not against abc — yields head aXYbc. -/
theorem claim_C2_stale_rebase_scenario :
    (((Engine.new []).edit_rev 0 0 0 ⟨[(0, ['a','b','c'])], []⟩).bind
      (fun e => e.edit_rev 1 1 0 ⟨[(1, ['X','Y'])], []⟩)).map Engine.get_head
      = some ['a','X','Y','b','c'] := by
  decide

/-- C3 counterexample: undoing the same group set twice does not restore the
text visible before the first undo.  After inserting a in group 1 the head is
a; after undo of group 1 and a second undo of group 1 the head is empty, so
the double undo differs from the pre-undo head. -/
theorem claim_C3_counterexample :
    (((Engine.new []).edit_rev 0 1 0 ⟨[(0, ['a'])], []⟩).map Engine.get_head = some ['a'])
    ∧ (((Engine.new []).edit_rev 0 1 0 ⟨[(0, ['a'])], []⟩).map
        (fun e => ((e.undo {1}).undo {1}).get_head) = some [])
    ∧ (((Engine.new []).edit_rev 0 1 0 ⟨[(0, ['a'])], []⟩).map
        (fun e => ((e.undo {1}).undo {1}).get_head)
      ≠ ((Engine.new []).edit_rev 0 1 0 ⟨[(0, ['a'])], []⟩).map Engine.get_head) := by
  refine ⟨by decide, by decide, by decide⟩

/-- C3 amended: undo visibility is absolute, not a toggle — undo with a group
set G and then undo with the same G again leaves the head text equal to the
text visible after the first undo (idempotence); the pre-undo text is instead
restored by undoing the previously current group set. -/
theorem claim_C3_undo_idempotent (e : Engine) (G : Finset Nat) :
    ((e.undo G).undo G).get_head = (e.undo G).get_head := by
  rw [get_head_undo, get_head_undo]
  have hu : (e.undo G).union_str = e.union_str := rfl
  rw [hu, compute_undo_after_undo]

/-- C10: undo leaves the union text unchanged and modifies the engine only by
appending one Undo revision — carrying the current union length, the
recomputed visibility and the target group set — and incrementing the id
counter by one; every pre-existing revision is untouched. -/
theorem claim_C10_undo_frame (e : Engine) (G : Finset Nat) :
    (e.undo G).union_str = e.union_str
    ∧ (e.undo G).revs = e.revs ++ [e.compute_undo G]
    ∧ (e.undo G).rev_id_counter = e.rev_id_counter + 1
    ∧ (e.compute_undo G).union_str_len = e.union_str.length
    ∧ (e.compute_undo G).edit = Contents.Undo G
    ∧ (e.compute_undo G).rev_id = e.rev_id_counter :=
  ⟨rfl, rfl, rfl, rfl, rfl, rfl⟩

/-- A revision list without any Undo entry yields no current undo set. -/
theorem findUndoGroups_none : ∀ l : List Revision,
    (∀ r ∈ l, r.edit.isUndo = false) → findUndoGroups l = none
  | [], _ => rfl
  | r :: rest, h => by
      have hr := h r (by simp)
      cases hedit : r.edit with
      | Edit p g i d =>
          simp only [findUndoGroups, hedit]
          exact findUndoGroups_none rest (fun x hx => h x (by simp [hx]))
      | Undo g => rw [hedit] at hr; simp [Contents.isUndo] at hr

/-- A scan that first crosses only non-Undo revisions answers the groups of
the first Undo revision it meets. -/
theorem findUndoGroups_append (R : Revision) (G : Finset Nat) (rest : List Revision)
    (hR : R.edit = Contents.Undo G) :
    ∀ l : List Revision, (∀ r ∈ l, r.edit.isUndo = false) →
      findUndoGroups (l ++ R :: rest) = some G
  | [], _ => by simp [findUndoGroups, hR]
  | r :: l, h => by
      have hr := h r (by simp)
      cases hedit : r.edit with
      | Edit p g i d =>
          simp only [List.cons_append, findUndoGroups, hedit]
          exact findUndoGroups_append R G rest hR l (fun x hx => h x (by simp [hx]))
      | Undo g => rw [hedit] at hr; simp [Contents.isUndo] at hr

/-- C9: get_current_undo answers the group set of the most recent Undo
revision under the newest-to-oldest scan — whenever the log splits into a
prefix, an Undo revision and a suffix containing no Undo revision, it answers
that revision's groups, even with later Edit revisions on top — answers none
on a log with no Undo revision, and in consequence answers exactly G
immediately after undo with G, regardless of earlier undo calls. -/
theorem claim_C9_get_current_undo :
    (∀ (e : Engine) (l1 l2 : List Revision) (R : Revision) (G : Finset Nat),
        e.revs = l1 ++ R :: l2 → R.edit = Contents.Undo G →
        (∀ r ∈ l2, r.edit.isUndo = false) → e.get_current_undo = some G)
    ∧ (∀ e : Engine, (∀ r ∈ e.revs, r.edit.isUndo = false) → e.get_current_undo = none)
    ∧ (∀ (e : Engine) (G : Finset Nat), (e.undo G).get_current_undo = some G) := by
  refine ⟨?_, ?_, ?_⟩
  · intro e l1 l2 R G hrevs hR h2
    show findUndoGroups e.revs.reverse = some G
    rw [hrevs, List.reverse_append, List.reverse_cons, List.append_assoc,
      List.singleton_append]
    exact findUndoGroups_append R G l1.reverse hR l2.reverse
      (fun r hr => h2 r (List.mem_reverse.mp hr))
  · intro e h
    exact findUndoGroups_none _ (fun r hr => h r (List.mem_reverse.mp hr))
  · intro e G
    show findUndoGroups (e.revs ++ [e.compute_undo G]).reverse = some G
    rw [List.reverse_append]
    rfl

/-- C9 witness: on the log seed, Undo of group set 1, then a later Edit in
group 2, the scan still answers the group set 1 of the buried Undo revision;
the fresh engine answers none; and immediately after an undo with group set 2
the answer is that set. -/
theorem claim_C9_witness :
    ((((Engine.new []).undo {1}).edit_rev 0 2 0 ⟨[(0, ['a'])], []⟩).getD
        (Engine.new [])).get_current_undo = some {1}
    ∧ (Engine.new []).get_current_undo = none
    ∧ ((Engine.new []).undo {2}).get_current_undo = some {2} :=
  ⟨claim_C9_get_current_undo.1
      ((((Engine.new []).undo {1}).edit_rev 0 2 0 ⟨[(0, ['a'])], []⟩).getD (Engine.new []))
      [⟨0, [], 0, Contents.Edit 0 0 [] []⟩]
      [⟨2, [], 1, Contents.Edit 0 2 [true] []⟩]
      ⟨1, [], 0, Contents.Undo {1}⟩ {1}
      (by decide) (by decide) (by decide),
   claim_C9_get_current_undo.2.1 (Engine.new []) (by decide),
   claim_C9_get_current_undo.2.2 (Engine.new []) {2}⟩

/-- A revision list without the sought id makes find_rev fail. -/
theorem findRevAux_none : ∀ (l : List Revision) (b : Nat),
    (∀ r ∈ l, r.rev_id ≠ b) → findRevAux l b = none
  | [], _, _ => rfl
  | r :: rest, b, h => by
      have hrest : findRevAux rest b = none :=
        findRevAux_none rest b (fun x hx => h x (by simp [hx]))
      simp [findRevAux, hrest, h r (by simp)]

/-- C6: a base revision id that occurs nowhere in the log makes edit_rev abort
(modelled as none, leaving no successor state, matching the panic that fires
before any mutation), and delta_head on a log with fewer than two revisions
aborts likewise. -/
theorem claim_C6_fatal_preconditions :
    (∀ (e : Engine) (p g b : Nat) (d : Delta),
        (∀ r ∈ e.revs, r.rev_id ≠ b) → e.edit_rev p g b d = none)
    ∧ (∀ e : Engine, e.revs.length < 2 → e.delta_head = none) := by
  constructor
  · intro e p g b d h
    have hf : e.find_rev b = none := findRevAux_none e.revs b h
    simp [Engine.edit_rev, Engine.mk_new_rev, hf]
  · intro e h
    unfold Engine.delta_head
    rw [if_neg (by omega)]

/-- C6 witness: the fresh engine has only revision id 0, so rebasing against
id 5 aborts, and its single-revision log makes delta_head abort. -/
theorem claim_C6_witness :
    (Engine.new []).edit_rev 0 0 5 ⟨[], []⟩ = none ∧ (Engine.new []).delta_head = none :=
  ⟨claim_C6_fatal_preconditions.1 (Engine.new []) 0 0 5 ⟨[], []⟩ (by decide),
   claim_C6_fatal_preconditions.2 (Engine.new []) (by decide)⟩

/-- An insertion-only delta never shortens the text it is applied to. -/
theorem length_le_insApplyAux : ∀ (d : List (Nat × List Char)) (s : List Char) (pos : Nat),
    s.length ≤ (insApplyAux d s pos).length
  | [], _, _ => le_refl _
  | (q, cs) :: ins, s, pos => by
      have ih := length_le_insApplyAux ins (s.drop (q - pos)) (max q pos)
      simp only [insApplyAux, List.length_append, List.length_take, List.length_drop] at *
      omega

/-- The revision built by the rebase carries the current counter as its id. -/
theorem mk_new_rev_at_fst_id (e : Engine) (p g : Nat) (d : Delta) (ix : Nat) :
    (e.mk_new_rev_at p g d ix).1.rev_id = e.rev_id_counter := rfl

/-- The union text built by the rebase is the old union text with some
insertion-only delta applied. -/
theorem mk_new_rev_at_snd (e : Engine) (p g : Nat) (d : Delta) (ix : Nat) :
    ∃ uid : InsDelta, (e.mk_new_rev_at p g d ix).2 = InsDelta.apply uid e.union_str :=
  ⟨_, rfl⟩

/-- Unfolding a successful edit_rev: some base index resolved, and the result
is the engine with the counter advanced, the freshly built revision appended
and the freshly built union text installed. -/
theorem edit_rev_some {e e' : Engine} {p g b : Nat} {d : Delta}
    (h : e.edit_rev p g b d = some e') :
    ∃ ix : Nat,
      e' = { rev_id_counter := e.rev_id_counter + 1,
             union_str := (e.mk_new_rev_at p g d ix).2,
             revs := e.revs ++ [(e.mk_new_rev_at p g d ix).1] } := by
  unfold Engine.edit_rev at h
  cases hm : e.mk_new_rev p g b d with
  | none => rw [hm] at h; exact absurd h (by simp)
  | some ru =>
      rw [hm] at h
      obtain rfl : ({ rev_id_counter := e.rev_id_counter + 1, union_str := ru.2,
                      revs := e.revs ++ [ru.1] } : Engine) = e' := by
        simpa using h
      unfold Engine.mk_new_rev at hm
      obtain ⟨ix, hix, hat⟩ := Option.map_eq_some'.mp hm
      exact ⟨ix, by rw [hat]⟩

/-- Every engine step appends exactly one revision carrying the old counter as
its id, advances the counter by one and never shortens the union text. -/
theorem step_spec {e e' : Engine} (h : Step e e') :
    (∃ R : Revision, e'.revs = e.revs ++ [R] ∧ R.rev_id = e.rev_id_counter)
    ∧ e'.rev_id_counter = e.rev_id_counter + 1
    ∧ e.union_str.length ≤ e'.union_str.length := by
  cases h with
  | edit p g b d he =>
      obtain ⟨ix, rfl⟩ := edit_rev_some he
      refine ⟨⟨_, rfl, mk_new_rev_at_fst_id e p g d ix⟩, rfl, ?_⟩
      obtain ⟨uid, hu⟩ := mk_new_rev_at_snd e p g d ix
      show e.union_str.length ≤ (e.mk_new_rev_at p g d ix).2.length
      rw [hu]
      exact length_le_insApplyAux uid e.union_str 0
  | undo G =>
      exact ⟨⟨e.compute_undo G, rfl, rfl⟩, rfl, le_refl _⟩

/-- C5: across any sequence of edit_rev and undo operations the union text
length never decreases, and the revision log only ever grows by appending —
every pre-existing entry survives unchanged in place. -/
theorem claim_C5_union_monotone_log_append_only {e e' : Engine}
    (h : Relation.ReflTransGen Step e e') :
    e.union_str.length ≤ e'.union_str.length ∧ ∃ l, e'.revs = e.revs ++ l := by
  induction h with
  | refl => exact ⟨le_refl _, [], by simp⟩
  | tail hab hbc ih =>
      obtain ⟨⟨R, hrevs, _⟩, _, hlen⟩ := step_spec hbc
      obtain ⟨l, hl⟩ := ih.2
      exact ⟨le_trans ih.1 hlen, l ++ [R], by rw [hrevs, hl, List.append_assoc]⟩

/-- C5 witness: one undo step from the fresh engine keeps the union length and
extends the log. -/
theorem claim_C5_witness :
    (Engine.new []).union_str.length ≤ ((Engine.new []).undo ∅).union_str.length
    ∧ ∃ l, ((Engine.new []).undo ∅).revs = (Engine.new []).revs ++ l :=
  claim_C5_union_monotone_log_append_only
    (Relation.ReflTransGen.single (Step.undo ∅))

/-- C7: revision ids are unique and strictly increasing in log order: the
invariant holds at construction, and every edit_rev or undo step preserves it
while appending exactly one revision whose id — the old counter value, which
then advances and is never reused — exceeds every id already in the log. -/
theorem claim_C7_ids_unique_increasing :
    (∀ t : List Char, IdsOk (Engine.new t))
    ∧ ∀ e e' : Engine, IdsOk e → Step e e' →
        IdsOk e' ∧ e'.rev_id_counter = e.rev_id_counter + 1
        ∧ ∃ R : Revision, e'.revs = e.revs ++ [R] ∧ ∀ r ∈ e.revs, r.rev_id < R.rev_id := by
  constructor
  · intro t
    constructor
    · simp [Engine.new]
    · intro r hr
      simp only [Engine.new, List.mem_singleton] at hr
      subst hr
      exact Nat.zero_lt_one
  · intro e e' hinv hstep
    obtain ⟨⟨R, hrevs, hid⟩, hctr, _⟩ := step_spec hstep
    have hlt : ∀ r ∈ e.revs, r.rev_id < R.rev_id := fun r hr => by
      rw [hid]; exact hinv.2 r hr
    refine ⟨⟨?_, ?_⟩, hctr, R, hrevs, hlt⟩
    · rw [hrevs, List.map_append, List.pairwise_append]
      refine ⟨hinv.1, List.pairwise_singleton _ _, ?_⟩
      intro a ha x hx
      simp only [List.map_cons, List.map_nil, List.mem_singleton] at hx
      subst hx
      obtain ⟨r, hr, rfl⟩ := List.mem_map.mp ha
      exact hlt r hr
    · intro r hr
      rw [hrevs] at hr
      rw [hctr]
      rcases List.mem_append.mp hr with hm | hm
      · have := hinv.2 r hm; omega
      · rw [List.mem_singleton] at hm
        subst hm
        rw [hid]
        omega

/-- C7 witness: the invariant holds on the fresh engine, and one undo step
preserves it while appending a revision with a strictly larger id. -/
theorem claim_C7_witness :
    IdsOk (Engine.new [])
    ∧ (IdsOk ((Engine.new []).undo ∅)
       ∧ ((Engine.new []).undo ∅).rev_id_counter = (Engine.new []).rev_id_counter + 1
       ∧ ∃ R : Revision, ((Engine.new []).undo ∅).revs = (Engine.new []).revs ++ [R]
          ∧ ∀ r ∈ (Engine.new []).revs, r.rev_id < R.rev_id) :=
  ⟨claim_C7_ids_unique_increasing.1 [],
   claim_C7_ids_unique_increasing.2 (Engine.new []) ((Engine.new []).undo ∅)
     (claim_C7_ids_unique_increasing.1 []) (Step.undo ∅)⟩

/-- C8: construction yields exactly one seed revision whose visible text is
the initial text, and every engine reachable from a fresh engine keeps a
nonempty log, so the index used by get_head stays in range. -/
theorem claim_C8_seed_and_head_defined (t : List Char) :
    (Engine.new t).revs.length = 1
    ∧ (Engine.new t).get_head = t
    ∧ ∀ e : Engine, Relation.ReflTransGen Step (Engine.new t) e → 1 ≤ e.revs.length := by
  refine ⟨rfl, ?_, ?_⟩
  · show Subset.apply _ t = t
    exact Subset.apply_nil t
  · intro e h
    induction h with
    | refl => simp [Engine.new]
    | tail hab hbc ih =>
        obtain ⟨⟨R, hrevs, _⟩, _, _⟩ := step_spec hbc
        rw [hrevs]
        simp only [List.length_append, List.length_cons, List.length_nil]
        omega

/-- Unfolding the subset application on a cons cell. -/
theorem Subset.apply_cons (s : Subset) (c : Char) (t : List Char) :
    Subset.apply s (c :: t) = (if s.headD false then [] else [c]) ++ Subset.apply s.tail t := rfl

/-- Every insertion entry produced by the synthesis walk sits at or after the
position the walk started from. -/
theorem synthAux_pos_le : ∀ (u : List Char) (A B : List Bool) (pos : Nat),
    ∀ pc ∈ (synthAux u A B pos).1, pos ≤ pc.1
  | [], _, _, _ => by intro pc hpc; simp [synthAux] at hpc
  | c :: u, A, B, pos => by
      intro pc hpc
      cases ha : A.headD false with
      | true =>
          cases hb : B.headD false with
          | true =>
              simp only [synthAux, ha, hb, if_true] at hpc
              exact synthAux_pos_le u A.tail B.tail pos pc hpc
          | false =>
              simp only [synthAux, ha, hb, if_true, Bool.false_eq_true, if_false,
                List.mem_cons] at hpc
              rcases hpc with h | h
              · subst h; exact le_refl _
              · exact synthAux_pos_le u A.tail B.tail pos pc h
      | false =>
          simp only [synthAux, ha, Bool.false_eq_true, if_false] at hpc
          have := synthAux_pos_le u A.tail B.tail (pos + 1) pc hpc
          omega

/-- Emitting a pending insertion whose gap has been reached. -/
theorem delApplyAux_emit (ins : List (Nat × List Char)) (dels : Subset) (s : List Char)
    (q pos : Nat) (cs : List Char) (h : q ≤ pos) :
    delApplyAux ((q, cs) :: ins) dels s pos = cs ++ delApplyAux ins dels s pos := by
  have h0 : q - pos = 0 := Nat.sub_eq_zero_of_le h
  have hmax : max q pos = pos := max_eq_right h
  simp [delApplyAux, h0, hmax, Subset.apply]

/-- Stepping the delta application walk past one old character when every
pending insertion lies strictly later. -/
theorem delApplyAux_step : ∀ (ins : List (Nat × List Char)) (dels : Subset) (c : Char)
    (s : List Char) (pos : Nat), (∀ pc ∈ ins, pos < pc.1) →
    delApplyAux ins dels (c :: s) pos
      = (if (dels : List Bool).headD false then [] else [c]) ++ delApplyAux ins dels.tail s (pos + 1)
  | [], dels, c, s, pos, _ => by
      simp [delApplyAux, Subset.apply_cons]
  | (q, cs) :: ins, dels, c, s, pos, h => by
      have hq : pos < q := h (q, cs) (List.mem_cons_self _ _)
      have hk : q - pos = (q - (pos + 1)) + 1 := by omega
      have hmax : max q pos = q := max_eq_left (by omega)
      have hmax2 : max q (pos + 1) = q := max_eq_left (by omega)
      cases dels with
      | nil =>
          simp only [delApplyAux, hk, hmax, hmax2, List.take_nil, List.drop_nil,
            List.take_succ_cons, List.drop_succ_cons, List.headD_nil, List.tail_nil]
          simp [Subset.apply_cons]
      | cons b dl =>
          simp only [delApplyAux, hk, hmax, hmax2, List.take_succ_cons, List.drop_succ_cons,
            List.headD_cons, List.tail_cons]
          simp [Subset.apply_cons]

/-- The synthesis walk is correct: applying the synthesized insertions and
deletions to the from-side selection of the union yields the to-side
selection. -/
theorem synthAux_apply : ∀ (u : List Char) (A B : List Bool) (pos : Nat),
    delApplyAux (synthAux u A B pos).1 (synthAux u A B pos).2 (Subset.apply A u) pos
      = Subset.apply B u
  | [], _, _, _ => rfl
  | c :: u, A, B, pos => by
      cases ha : A.headD false with
      | true =>
          have hA : Subset.apply A (c :: u) = Subset.apply A.tail u := by
            simp only [Subset.apply_cons, ha, if_true, List.nil_append]
          cases hb : B.headD false with
          | true =>
              have hB : Subset.apply B (c :: u) = Subset.apply B.tail u := by
                simp only [Subset.apply_cons, hb, if_true, List.nil_append]
              have hs : synthAux (c :: u) A B pos = synthAux u A.tail B.tail pos := by
                simp only [synthAux, ha, hb, if_true]
              rw [hA, hB, hs]
              exact synthAux_apply u A.tail B.tail pos
          | false =>
              have hB : Subset.apply B (c :: u) = c :: Subset.apply B.tail u := by
                simp only [Subset.apply_cons, hb, Bool.false_eq_true, if_false,
                  List.singleton_append]
              have hs1 : (synthAux (c :: u) A B pos).1
                  = (pos, [c]) :: (synthAux u A.tail B.tail pos).1 := by
                simp only [synthAux, ha, hb, if_true, Bool.false_eq_true, if_false]
              have hs2 : (synthAux (c :: u) A B pos).2
                  = (synthAux u A.tail B.tail pos).2 := by
                simp only [synthAux, ha, hb, if_true, Bool.false_eq_true, if_false]
              rw [hA, hB, hs1, hs2]
              rw [delApplyAux_emit _ _ _ pos pos _ (le_refl pos)]
              rw [synthAux_apply u A.tail B.tail pos]
              rfl
      | false =>
          have hA : Subset.apply A (c :: u) = c :: Subset.apply A.tail u := by
            simp only [Subset.apply_cons, ha, Bool.false_eq_true, if_false,
              List.singleton_append]
          have hs1 : (synthAux (c :: u) A B pos).1
              = (synthAux u A.tail B.tail (pos + 1)).1 := by
            simp only [synthAux, ha, Bool.false_eq_true, if_false]
          have hs2 : (synthAux (c :: u) A B pos).2
              = B.headD false :: (synthAux u A.tail B.tail (pos + 1)).2 := by
            simp only [synthAux, ha, Bool.false_eq_true, if_false]
          rw [hA, hs1, hs2]
          rw [delApplyAux_step _ _ _ _ _
            (fun pc hpc => lt_of_lt_of_le (Nat.lt_succ_self pos)
              (synthAux_pos_le u A.tail B.tail (pos + 1) pc hpc))]
          simp only [List.headD_cons, List.tail_cons]
          rw [synthAux_apply u A.tail B.tail (pos + 1), Subset.apply_cons]

/-- Synthesize then apply: the synthesized delta carries the from-side text to
the to-side text of the same union. -/
theorem synthesize_apply (u : List Char) (A B : Subset) :
    (Delta.synthesize u A B).apply (Subset.apply A u) = Subset.apply B u :=
  synthAux_apply u A B 0

/-- Dropping all but the last element leaves exactly the last element. -/
theorem drop_length_sub_one {α : Type} (d : α) : ∀ l : List α, l ≠ [] →
    l.drop (l.length - 1) = [l.getD (l.length - 1) d]
  | [], h => absurd rfl h
  | [x], _ => rfl
  | x :: y :: t, _ => by
      have ih := drop_length_sub_one d (y :: t) (by simp)
      simpa using ih

/-- C4: on any engine with at least two revisions, applying the delta
returned by delta_head to the text of the second to last revision yields
exactly the head text. -/
theorem claim_C4_delta_head_consistency (e : Engine) (d : Delta)
    (h2 : 2 ≤ e.revs.length) (hd : e.delta_head = some d) :
    d.apply (e.get_rev (e.revs.length - 2)) = e.get_head := by
  have hne : e.revs ≠ [] := by
    intro h0
    rw [h0] at h2
    simp at h2
  have hidx : e.revs.length - 2 + 1 = e.revs.length - 1 := by omega
  have hdrop : e.revs.drop (e.revs.length - 1) = [e.revs.getD (e.revs.length - 1) default] :=
    drop_length_sub_one default e.revs hne
  have hgr : e.get_rev (e.revs.length - 2)
      = Subset.apply (revStep (e.revs.getD (e.revs.length - 2) default).from_union
          (e.revs.getD (e.revs.length - 1) default)) e.union_str := by
    unfold Engine.get_rev
    rw [hidx, hdrop]
    rfl
  have hgh : e.get_head
      = Subset.apply (e.revs.getD (e.revs.length - 1) default).from_union e.union_str := by
    unfold Engine.get_head Engine.get_rev
    have hlen : e.revs.length - 1 + 1 = e.revs.length := by omega
    rw [hlen, List.drop_length]
    rfl
  unfold Engine.delta_head at hd
  rw [if_pos h2] at hd
  have hd2 : Delta.synthesize e.union_str
      (revStep (e.revs.getD (e.revs.length - 2) default).from_union
        (e.revs.getD (e.revs.length - 1) default))
      (e.revs.getD (e.revs.length - 1) default).from_union = d := by
    simpa using hd
  rw [hgr, hgh, ← hd2]
  exact synthesize_apply e.union_str _ _

/-- C4 witness: on the two-revision engine built by one undo from a seed z,
delta_head is the delta keeping the single character, and applying it to the
second to last revision's text gives the head. -/
theorem claim_C4_witness :
    Delta.apply ⟨[], [false]⟩ (((Engine.new ['z']).undo ∅).get_rev
        (((Engine.new ['z']).undo ∅).revs.length - 2))
      = ((Engine.new ['z']).undo ∅).get_head :=
  claim_C4_delta_head_consistency ((Engine.new ['z']).undo ∅) ⟨[], [false]⟩
    (by decide) (by decide)

/-- C8 witness: a fresh engine followed by one undo keeps a nonempty log. -/
theorem claim_C8_witness :
    (Engine.new ['q']).revs.length = 1
    ∧ (Engine.new ['q']).get_head = ['q']
    ∧ 1 ≤ ((Engine.new ['q']).undo ∅).revs.length :=
  ⟨(claim_C8_seed_and_head_defined ['q']).1,
   (claim_C8_seed_and_head_defined ['q']).2.1,
   (claim_C8_seed_and_head_defined ['q']).2.2 _ (Relation.ReflTransGen.single (Step.undo ∅))⟩

end XiEngine
